import Mathlib

/-!
# Verification of miniwdl's JSON value marshaling and workflow-engine properties

A shallow embedding of `WDL.values_from_json` / `WDL.values_to_json`
(`src/WDL/__init__.py`) together with spec-modelled fragments of the workflow
execution engine (environment bindings, scatter/gather semantics, assertion
nodes, and the file-download interface), over which the specification's claims
are stated and settled.

Python strings are modelled as `List Char` (a Python `str` is a sequence of
unicode characters); Python dicts parsed from JSON are modelled as association
lists with insertion-ordered keys.
-/

set_option autoImplicit false

namespace Miniwdl

/-- A Python `str`: a sequence of unicode characters. -/
abbrev Name := List Char

/-- `s.startswith(p)` on Python strings. -/
def nameStartsWith (s p : Name) : Bool := p.isPrefixOf s

/-- `s.endswith(".")` on Python strings. -/
def endsWithDot (s : Name) : Bool := s.getLast? == some '.'

/-- A JSON value, as parsed from Cromwell-style JSON input (a flat fragment
suffices: the key-handling logic under verification treats the values
opaquely, passing them through to `Value.from_json`). -/
inductive JValue where
  | null
  | bool (b : Bool)
  | num (n : Int)
  | str (s : Name)
  deriving DecidableEq, Repr

/-- A WDL type, rendered by its string form (`str(type)` in the source). -/
abbrev Ty := Name

/-- An entry of the `available`/`required` environments passed to
`values_from_json`: either a `Tree.Decl` (which carries a `.type`) or a bare
`Type.Base`. -/
inductive AvailEntry where
  | declEntry (declName : Name) (declType : Ty)
  | typeEntry (t : Ty)
  deriving DecidableEq, Repr

/-- `ty = available[key2]; if isinstance(ty, Tree.Decl): ty = ty.type`
(src/WDL/__init__.py lines 188-193). -/
def entryType : AvailEntry → Ty
  | .declEntry _ t => t
  | .typeEntry t => t

/-- Modelled from the spec: a runtime WDL value (`Value.Base`, not under
`src/`). Per §6, output values are "serializable back to JSON by the caller"
and JSON marshaling of values is out of scope, so a value is modelled by its
declared type together with its JSON form, with total, JSON-faithful
conversion (`WValue.fromJson` stands for `Value.from_json`, the `json` field
for `Value.Base.json`). -/
structure WValue where
  type : Ty
  json : JValue
  deriving DecidableEq, Repr

/-- Modelled from the spec: `Value.from_json(ty, j)` builds a value of the
declared type from its JSON form (total; see `WValue`). -/
def WValue.fromJson (t : Ty) (j : JValue) : WValue := ⟨t, j⟩

/-- Modelled from the spec (§3): `Env.Bindings[V]`, an ordered immutable
mapping from name to `V`; `bind` adds an entry at the front, the most recent
binding of a name wins for lookup, prior entries are retained for iteration. -/
abbrev Bindings (V : Type) := List (Name × V)

namespace Env

variable {V : Type}

/-- The empty `Env.Bindings()`. -/
def empty : Bindings V := []

/-- `env.bind(name, value)`: a new mapping with one more entry; last bind of a
duplicate name wins for lookup. -/
def bind (env : Bindings V) (n : Name) (v : V) : Bindings V := (n, v) :: env

/-- Lookup (`env[name]`): the most recent binding of the name, if any. -/
def resolve (env : Bindings V) (n : Name) : Option V := List.lookup n env

/-- Membership test (`name in env`). -/
def hasBinding (env : Bindings V) (n : Name) : Bool := (resolve env n).isSome

/-- The names bound by an environment, in iteration order. -/
def names (env : Bindings V) : List Name := env.map Prod.fst

/-- Modelled from the spec (§3): subtraction — entries in `a` whose names are
absent from `b`. -/
def subtract {W : Type} (a : Bindings V) (b : Bindings W) : Bindings V :=
  a.filter (fun item => ¬ hasBinding b item.1)

end Env

/-- `Error.InputError`, which carries a message. -/
structure InputError where
  msg : Name
  deriving DecidableEq, Repr

/-- `"unknown input/output: "`. -/
def msgUnknown : Name := "unknown input/output: ".data

/-- `"missing required inputs/outputs: "`. -/
def msgMissing : Name := "missing required inputs/outputs: ".data

/-- Namespace normalization shared by `values_from_json` and `values_to_json`:
`if namespace and not namespace.endswith("."): namespace += "."`. -/
def normNs (ns : Name) : Name :=
  if ns ≠ [] ∧ endsWithDot ns = false then ns ++ ['.'] else ns

/-- Namespace-prefix stripping (src/WDL/__init__.py lines 179-181, with `ns`
already normalized): `key2 = key[len(namespace):] if namespace and
key.startswith(namespace) else key`. -/
def stripNs (ns key : Name) : Name :=
  if ns ≠ [] ∧ nameStartsWith key ns then key.drop ns.length else key

/-- The key under which `values_from_json` looks up (and binds) a non-comment
dict key (src/WDL/__init__.py lines 179-186): strip the namespace prefix, and
if the result is not directly available, attempt to simplify
`<call>.<subworkflow>.<input>` into `<call>.<input>` when the key splits into
exactly three non-empty dot-separated parts. -/
def resolveKey (avail : Bindings AvailEntry) (ns key : Name) : Name :=
  let key2 := stripNs ns key
  if Env.hasBinding avail key2 then key2
  else
    match key2.splitOn '.' with
    | [a, b, c] => if a ≠ [] ∧ b ≠ [] ∧ c ≠ [] then a ++ ['.'] ++ c else key2
    | _ => key2

/-- The per-key loop of `values_from_json` (src/WDL/__init__.py lines
177-194): skip `#`-prefixed "comment" keys; otherwise resolve the key against
`available`, raising `InputError("unknown input/output: " + key)` when the
lookup fails, and bind `Value.from_json(ty, values_json[key])` under the
resolved key. -/
def valuesFromJsonLoop (avail : Bindings AvailEntry) (ns : Name) :
    List (Name × JValue) → Bindings WValue → Except InputError (Bindings WValue)
  | [], ans => .ok ans
  | (key, j) :: rest, ans =>
    if nameStartsWith key ['#'] then valuesFromJsonLoop avail ns rest ans
    else
      let key2 := resolveKey avail ns key
      match Env.resolve avail key2 with
      | none => .error ⟨msgUnknown ++ key⟩
      | some entry =>
          valuesFromJsonLoop avail ns rest
            (Env.bind ans key2 (WValue.fromJson (entryType entry) j))

/-- Python dict assignment `ans[k] = v`: replace in place if the key is
present, else append. -/
def dictInsert (d : List (Name × JValue)) (k : Name) (v : JValue) :
    List (Name × JValue) :=
  if d.any (fun e => e.1 == k) then
    d.map (fun e => if e.1 == k then (k, v) else e)
  else d ++ [(k, v)]

/-- `values_to_json` (src/WDL/__init__.py lines 204-226), generic in how the
right-hand side of each entry is rendered (a `Value.Base` renders as
`v.json`, a `Tree.Decl` or `Type.Base` as its type string): normalize the
namespace, then build the dict keyed `namespace + item.name`. -/
def valuesToJsonWith {V : Type} (itemJson : V → JValue) (env : Bindings V)
    (ns : Name) : List (Name × JValue) :=
  let ns2 := normNs ns
  env.foldl (fun ans item => dictInsert ans (ns2 ++ item.1) (itemJson item.2)) []

/-- `values_to_json` on an `Env.Bindings[Value.Base]`. -/
def valuesToJson (env : Bindings WValue) (ns : Name) : List (Name × JValue) :=
  valuesToJsonWith WValue.json env ns

/-- `values_to_json` on an `Env.Bindings[Tree.Decl | Type.Base]` (used for the
missing-required error message). -/
def valuesToJsonEntries (env : Bindings AvailEntry) (ns : Name) :
    List (Name × JValue) :=
  valuesToJsonWith (fun e => .str (entryType e)) env ns

/-- The required-inputs check of `values_from_json` (src/WDL/__init__.py
lines 195-201): when a truthy `required` environment was supplied, raise
`InputError` listing `required.subtract(ans)` if it is non-empty (the message
joins the keys of `values_to_json(missing)` with `", "`); otherwise return
the constructed bindings unchanged. -/
def checkRequired (required : Option (Bindings AvailEntry))
    (ans : Bindings WValue) : Except InputError (Bindings WValue) :=
  match required with
  | some req =>
    if req ≠ [] then
      let missing := Env.subtract req ans
      if missing ≠ [] then
        .error ⟨msgMissing ++
          List.intercalate (", ".data)
            ((valuesToJsonEntries missing []).map Prod.fst)⟩
      else .ok ans
    else .ok ans
  | none => .ok ans

/-- `values_from_json` (src/WDL/__init__.py lines 158-201): normalize the
namespace, run the per-key loop, then apply the required-inputs check. -/
def valuesFromJson (valuesJson : List (Name × JValue))
    (avail : Bindings AvailEntry) (required : Option (Bindings AvailEntry))
    (nsArg : Name) : Except InputError (Bindings WValue) :=
  let ns := normNs nsArg
  match valuesFromJsonLoop avail ns valuesJson Env.empty with
  | .error e => .error e
  | .ok ans => checkRequired required ans

/-- A dict key that `values_from_json` will reject: not a `#`-comment, and
its resolved form (after namespace stripping and dotted-path simplification)
does not name an available declaration. -/
def badKey (avail : Bindings AvailEntry) (ns key : Name) : Prop :=
  nameStartsWith key ['#'] = false ∧
    Env.resolve avail (resolveKey avail ns key) = none

instance (avail : Bindings AvailEntry) (ns key : Name) :
    Decidable (badKey avail ns key) := by
  unfold badKey; infer_instance

/-! ## Helper lemmas about the per-key loop -/

theorem valuesFromJsonLoop_skip_comments (avail : Bindings AvailEntry)
    (ns : Name) (vj : List (Name × JValue)) (acc : Bindings WValue) :
    valuesFromJsonLoop avail ns vj acc =
      valuesFromJsonLoop avail ns
        (vj.filter (fun kv => ! nameStartsWith kv.1 ['#'])) acc := by
  induction vj generalizing acc with
  | nil => rfl
  | cons kv rest ih =>
    obtain ⟨key, j⟩ := kv
    cases hc : nameStartsWith key ['#'] with
    | true =>
      rw [List.filter_cons_of_neg (by simp [hc])]
      simpa [valuesFromJsonLoop, hc] using ih acc
    | false =>
      rw [List.filter_cons_of_pos (by simp [hc])]
      cases hres : Env.resolve avail (resolveKey avail ns key) with
      | none => simp [valuesFromJsonLoop, hc, hres]
      | some entry => simp [valuesFromJsonLoop, hc, hres, ih]

theorem valuesFromJsonLoop_error_of_badKey (avail : Bindings AvailEntry)
    (ns : Name) (vj : List (Name × JValue)) (acc : Bindings WValue)
    (h : ∃ kv ∈ vj, badKey avail ns kv.1) :
    ∃ key, (key ∈ vj.map Prod.fst ∧ badKey avail ns key) ∧
      valuesFromJsonLoop avail ns vj acc = .error ⟨msgUnknown ++ key⟩ := by
  induction vj generalizing acc with
  | nil =>
    rcases h with ⟨kv2, hkv2, _⟩
    cases hkv2
  | cons kv rest ih =>
    obtain ⟨key, j⟩ := kv
    cases hc : nameStartsWith key ['#'] with
    | true =>
      have h2 : ∃ kv ∈ rest, badKey avail ns kv.1 := by
        rcases h with ⟨kv2, hkv2, hbad⟩
        rcases List.mem_cons.mp hkv2 with heq | hmem
        · rw [heq] at hbad
          have hb1 : nameStartsWith key ['#'] = false := hbad.1
          rw [hb1] at hc
          cases hc
        · exact ⟨kv2, hmem, hbad⟩
      obtain ⟨k, ⟨hk, hbadk⟩, heq⟩ := ih acc h2
      refine ⟨k, ⟨?_, hbadk⟩, by simpa [valuesFromJsonLoop, hc] using heq⟩
      rw [List.map_cons]
      exact List.mem_cons_of_mem _ hk
    | false =>
      cases hres : Env.resolve avail (resolveKey avail ns key) with
      | none =>
        refine ⟨key, ⟨?_, ⟨hc, hres⟩⟩, ?_⟩
        · rw [List.map_cons]
          exact List.mem_cons_self _ _
        · simp [valuesFromJsonLoop, hc, hres]
      | some entry =>
        have h2 : ∃ kv ∈ rest, badKey avail ns kv.1 := by
          rcases h with ⟨kv2, hkv2, hbad⟩
          rcases List.mem_cons.mp hkv2 with heq | hmem
          · rw [heq] at hbad
            have hb2 : Env.resolve avail (resolveKey avail ns key) = none := hbad.2
            rw [hb2] at hres
            cases hres
          · exact ⟨kv2, hmem, hbad⟩
        obtain ⟨k, ⟨hk, hbadk⟩, heq⟩ :=
          ih (Env.bind acc (resolveKey avail ns key)
            (WValue.fromJson (entryType entry) j)) h2
        refine ⟨k, ⟨?_, hbadk⟩,
          by simpa [valuesFromJsonLoop, hc, hres] using heq⟩
        rw [List.map_cons]
        exact List.mem_cons_of_mem _ hk

/-! ## Concrete fixtures used by witnesses -/

/-- A small concrete `available` environment: a directly-named declaration
`x`, and a flattened call input name `a.c`. -/
def exAvail : Bindings AvailEntry :=
  [("x".data, .typeEntry "Int".data), ("a.c".data, .typeEntry "String".data)]

/-! ## Claims about values_from_json / values_to_json -/

/-- C8: every dict key starting with `#` is silently ignored by
`values_from_json`: running on the dict equals running on the dict with all
`#`-prefixed keys removed, for every available environment, required
environment and namespace — so such a key produces no binding, is never
checked against the available declarations, and never raises an `InputError`,
regardless of whether it would otherwise be unknown. -/
theorem valuesFromJson_ignores_comment_keys
    (vj : List (Name × JValue)) (avail : Bindings AvailEntry)
    (required : Option (Bindings AvailEntry)) (ns : Name) :
    valuesFromJson vj avail required ns =
      valuesFromJson (vj.filter (fun kv => ! nameStartsWith kv.1 ['#']))
        avail required ns := by
  simp only [valuesFromJson]
  rw [valuesFromJsonLoop_skip_comments avail (normNs ns) vj Env.empty]

/-- C1: if some key of the input dict (not starting with `#`) still does not
name an available declaration after namespace-prefix stripping and
dotted-path simplification, then `values_from_json` raises an `InputError`
whose message names such a key verbatim (in particular it never silently
drops such a key). -/
theorem valuesFromJson_unknown_key_raises
    (vj : List (Name × JValue)) (avail : Bindings AvailEntry)
    (required : Option (Bindings AvailEntry)) (ns : Name)
    (h : ∃ kv ∈ vj, badKey avail (normNs ns) kv.1) :
    ∃ key, (key ∈ vj.map Prod.fst ∧ badKey avail (normNs ns) key) ∧
      valuesFromJson vj avail required ns = .error ⟨msgUnknown ++ key⟩ := by
  obtain ⟨k, hk, heq⟩ :=
    valuesFromJsonLoop_error_of_badKey avail (normNs ns) vj Env.empty h
  exact ⟨k, hk, by simp [valuesFromJson, heq]⟩

/-- Witness for C1: the unknown key `zzz` (amid a known key and a comment
key) makes `values_from_json` raise `unknown input/output: zzz`. -/
theorem valuesFromJson_unknown_key_raises_witness :
    ∃ key,
      (key ∈ ([("x".data, JValue.num 1), ("#note".data, JValue.null),
          ("zzz".data, JValue.num 3)] : List (Name × JValue)).map Prod.fst ∧
        badKey exAvail (normNs []) key) ∧
      valuesFromJson
          [("x".data, JValue.num 1), ("#note".data, JValue.null),
            ("zzz".data, JValue.num 3)] exAvail none [] =
        .error ⟨msgUnknown ++ key⟩ :=
  valuesFromJson_unknown_key_raises _ exAvail none []
    ⟨("zzz".data, JValue.num 3), by decide, by decide⟩

/-- C3: for a key that, after namespace stripping, is not directly among the
available declarations: if it consists of exactly three non-empty
dot-separated parts `a.b.c`, the lookup key — and the resulting binding name
when the lookup succeeds — is the flattened `a.c`; whereas a key whose
stripped form has a number of dot-separated parts other than three, or an
empty part, is never flattened. -/
theorem valuesFromJson_dotted_path_flattening
    (avail : Bindings AvailEntry) (ns key a b c : Name) (j : JValue) :
    (Env.hasBinding avail (stripNs (normNs ns) key) = false →
      (stripNs (normNs ns) key).splitOn '.' = [a, b, c] →
      a ≠ [] → b ≠ [] → c ≠ [] →
      resolveKey avail (normNs ns) key = a ++ ['.'] ++ c ∧
        ∀ e, Env.resolve avail (a ++ ['.'] ++ c) = some e →
          nameStartsWith key ['#'] = false →
          valuesFromJson [(key, j)] avail none ns =
            .ok [(a ++ ['.'] ++ c, WValue.fromJson (entryType e) j)]) ∧
    (((stripNs (normNs ns) key).splitOn '.').length ≠ 3 ∨
        [] ∈ (stripNs (normNs ns) key).splitOn '.' →
      resolveKey avail (normNs ns) key = stripNs (normNs ns) key) := by
  constructor
  · intro hnotavail hsplit ha hb hc
    have hres : resolveKey avail (normNs ns) key = a ++ ['.'] ++ c := by
      simp [resolveKey, hnotavail, hsplit, ha, hb, hc]
    refine ⟨hres, ?_⟩
    intro e he hcomment
    simp only [List.append_assoc, List.singleton_append] at he
    simp [valuesFromJson, valuesFromJsonLoop, checkRequired, hcomment, hres,
      he, Env.bind, Env.empty]
  · intro hshape
    cases havail : Env.hasBinding avail (stripNs (normNs ns) key) with
    | true => simp [resolveKey, havail]
    | false =>
      rcases hsplit : (stripNs (normNs ns) key).splitOn '.' with
        _ | ⟨a1, _ | ⟨b1, _ | ⟨c1, _ | _⟩⟩⟩
      · simp [resolveKey, havail, hsplit]
      · simp [resolveKey, havail, hsplit]
      · simp [resolveKey, havail, hsplit]
      · rw [hsplit] at hshape
        rcases hshape with hlen | hempty
        · simp at hlen
        · have : a1 = [] ∨ b1 = [] ∨ c1 = [] := by
            rcases List.mem_cons.mp hempty with h1 | h1
            · exact Or.inl h1.symm
            rcases List.mem_cons.mp h1 with h2 | h2
            · exact Or.inr (Or.inl h2.symm)
            rcases List.mem_cons.mp h2 with h3 | h3
            · exact Or.inr (Or.inr h3.symm)
            · cases h3
          rcases this with h0 | h0 | h0 <;>
            simp [resolveKey, havail, hsplit, h0]
      · simp [resolveKey, havail, hsplit]

/-- Witness for C3: `a.b.c` flattens to the available `a.c` and is bound
under that name, while the two-part key `p.q` is left unflattened. -/
theorem valuesFromJson_dotted_path_flattening_witness :
    (resolveKey exAvail (normNs []) "a.b.c".data = "a".data ++ ['.'] ++ "c".data ∧
      valuesFromJson [("a.b.c".data, JValue.num 2)] exAvail none [] =
        .ok [("a".data ++ ['.'] ++ "c".data,
          WValue.fromJson (entryType (.typeEntry "String".data)) (JValue.num 2))]) ∧
    resolveKey exAvail (normNs []) "p.q".data = stripNs (normNs []) "p.q".data := by
  constructor
  · obtain ⟨h1, h2⟩ :=
      (valuesFromJson_dotted_path_flattening exAvail [] "a.b.c".data
        "a".data "b".data "c".data (JValue.num 2)).1
        (by decide) (by decide) (by decide) (by decide) (by decide)
    exact ⟨h1, h2 (.typeEntry "String".data) (by decide) (by decide)⟩
  · exact (valuesFromJson_dotted_path_flattening exAvail [] "p.q".data
      [] [] [] JValue.null).2 (Or.inl (by decide))

theorem nameStartsWith_append_false (key p q : Name)
    (h : nameStartsWith key p = false) :
    nameStartsWith key (p ++ q) = false := by
  cases hx : nameStartsWith key (p ++ q) with
  | false => rfl
  | true =>
    have h1 : p ++ q <+: key := List.isPrefixOf_iff_prefix.mp hx
    have h2 : p.isPrefixOf key = true :=
      List.isPrefixOf_iff_prefix.mpr ((List.prefix_append p q).trans h1)
    rw [nameStartsWith] at h
    rw [h] at h2
    cases h2

theorem normNs_self_or_dot (ns : Name) :
    normNs ns = ns ∨ normNs ns = ns ++ ['.'] := by
  unfold normNs
  split
  · exact Or.inr rfl
  · exact Or.inl rfl

theorem valuesFromJsonLoop_ok_mono (avail : Bindings AvailEntry) (ns : Name)
    (vj : List (Name × JValue)) (acc ans : Bindings WValue)
    (hok : valuesFromJsonLoop avail ns vj acc = .ok ans) :
    ∀ x ∈ acc, x ∈ ans := by
  induction vj generalizing acc with
  | nil =>
    intro x hx
    simp only [valuesFromJsonLoop] at hok
    cases hok
    exact hx
  | cons kv rest ih =>
    obtain ⟨key, j⟩ := kv
    intro x hx
    cases hc : nameStartsWith key ['#'] with
    | true =>
      rw [valuesFromJsonLoop, if_pos hc] at hok
      exact ih acc hok x hx
    | false =>
      cases hres : Env.resolve avail (resolveKey avail ns key) with
      | none => simp [valuesFromJsonLoop, hc, hres] at hok
      | some entry =>
        rw [valuesFromJsonLoop, if_neg (by simp [hc])] at hok
        simp only [hres] at hok
        exact ih _ hok x (List.mem_cons_of_mem _ hx)

theorem valuesFromJsonLoop_ok_binds (avail : Bindings AvailEntry) (ns : Name)
    (vj : List (Name × JValue)) (acc ans : Bindings WValue)
    (key : Name) (j : JValue) (e : AvailEntry)
    (hmem : (key, j) ∈ vj)
    (hcomment : nameStartsWith key ['#'] = false)
    (he : Env.resolve avail (resolveKey avail ns key) = some e)
    (hok : valuesFromJsonLoop avail ns vj acc = .ok ans) :
    (resolveKey avail ns key, WValue.fromJson (entryType e) j) ∈ ans := by
  induction vj generalizing acc with
  | nil => cases hmem
  | cons kv rest ih =>
    obtain ⟨k2, j2⟩ := kv
    rcases List.mem_cons.mp hmem with heq | htail
    · injection heq with hk hj
      subst hk
      subst hj
      rw [valuesFromJsonLoop, if_neg (by simp [hcomment])] at hok
      simp only [he] at hok
      exact valuesFromJsonLoop_ok_mono avail ns rest _ ans hok _
        (List.mem_cons_self _ _)
    · cases hc2 : nameStartsWith k2 ['#'] with
      | true =>
        rw [valuesFromJsonLoop, if_pos hc2] at hok
        exact ih _ htail hok
      | false =>
        cases hres2 : Env.resolve avail (resolveKey avail ns k2) with
        | none => simp [valuesFromJsonLoop, hc2, hres2] at hok
        | some entry2 =>
          rw [valuesFromJsonLoop, if_neg (by simp [hc2])] at hok
          simp only [hres2] at hok
          exact ih _ htail hok

theorem valuesFromJsonLoop_error_shape (avail : Bindings AvailEntry)
    (ns : Name) (vj : List (Name × JValue)) (acc : Bindings WValue)
    (m : InputError)
    (herr : valuesFromJsonLoop avail ns vj acc = .error m) :
    ∃ key, key ∈ vj.map Prod.fst ∧ badKey avail ns key ∧
      m = ⟨msgUnknown ++ key⟩ := by
  induction vj generalizing acc with
  | nil => simp [valuesFromJsonLoop] at herr
  | cons kv rest ih =>
    obtain ⟨key, j⟩ := kv
    cases hc : nameStartsWith key ['#'] with
    | true =>
      rw [valuesFromJsonLoop, if_pos hc] at herr
      obtain ⟨k, hk, hbad, hm⟩ := ih acc herr
      exact ⟨k, by rw [List.map_cons]; exact List.mem_cons_of_mem _ hk, hbad, hm⟩
    | false =>
      cases hres : Env.resolve avail (resolveKey avail ns key) with
      | none =>
        rw [valuesFromJsonLoop, if_neg (by simp [hc])] at herr
        simp only [hres] at herr
        cases herr
        exact ⟨key, by rw [List.map_cons]; exact List.mem_cons_self _ _,
          ⟨hc, hres⟩, rfl⟩
      | some entry =>
        rw [valuesFromJsonLoop, if_neg (by simp [hc])] at herr
        simp only [hres] at herr
        obtain ⟨k, hk, hbad, hm⟩ := ih _ herr
        exact ⟨k, by rw [List.map_cons]; exact List.mem_cons_of_mem _ hk, hbad, hm⟩

theorem valuesFromJson_of_loop_ok (vj : List (Name × JValue))
    (avail : Bindings AvailEntry) (required : Option (Bindings AvailEntry))
    (ns : Name) (ans0 : Bindings WValue)
    (hloop : valuesFromJsonLoop avail (normNs ns) vj Env.empty = .ok ans0) :
    valuesFromJson vj avail required ns = checkRequired required ans0 := by
  simp [valuesFromJson, hloop]

theorem valuesFromJson_of_loop_error (vj : List (Name × JValue))
    (avail : Bindings AvailEntry) (required : Option (Bindings AvailEntry))
    (ns : Name) (m : InputError)
    (hloop : valuesFromJsonLoop avail (normNs ns) vj Env.empty = .error m) :
    valuesFromJson vj avail required ns = .error m := by
  simp [valuesFromJson, hloop]

theorem checkRequired_ok (required : Option (Bindings AvailEntry))
    (ans0 ans : Bindings WValue) (h : checkRequired required ans0 = .ok ans) :
    ans = ans0 := by
  rcases required with - | req
  · cases h
    rfl
  · by_cases hreq : req ≠ []
    · rw [checkRequired, if_pos hreq] at h
      by_cases hmiss : Env.subtract req ans0 ≠ []
      · rw [if_pos hmiss] at h
        cases h
      · rw [if_neg hmiss] at h
        cases h
        rfl
    · rw [checkRequired, if_neg hreq] at h
      cases h
      rfl

theorem checkRequired_error_msg (required : Option (Bindings AvailEntry))
    (ans0 : Bindings WValue) (m : InputError)
    (h : checkRequired required ans0 = .error m) :
    ∃ t, m = ⟨msgMissing ++ t⟩ := by
  rcases required with - | req
  · cases h
  · by_cases hreq : req ≠ []
    · rw [checkRequired, if_pos hreq] at h
      by_cases hmiss : Env.subtract req ans0 ≠ []
      · rw [if_pos hmiss] at h
        injection h with h
        exact ⟨_, h.symm⟩
      · rw [if_neg hmiss] at h
        cases h
    · rw [checkRequired, if_neg hreq] at h
      cases h

theorem msgMissing_append_ne (t u : Name) :
    (⟨msgMissing ++ t⟩ : InputError) ≠ ⟨msgUnknown ++ u⟩ := by
  intro h
  injection h with h
  have h1 := congrArg List.head? h
  rw [List.head?_append_of_ne_nil _ (by decide),
    List.head?_append_of_ne_nil _ (by decide)] at h1
  exact absurd h1 (by decide)

/-- C10: the namespace prefix is optional per key, not enforced — a dict key
that does not start with the supplied namespace but verbatim names an
available declaration is accepted and bound under its unstripped name, and
`values_from_json` never raises the unknown-input `InputError` for it. -/
theorem valuesFromJson_namespace_optional
    (vj : List (Name × JValue)) (avail : Bindings AvailEntry)
    (required : Option (Bindings AvailEntry)) (ns key : Name) (j : JValue)
    (e : AvailEntry)
    (hmem : (key, j) ∈ vj)
    (hns : nameStartsWith key ns = false)
    (hcomment : nameStartsWith key ['#'] = false)
    (he : Env.resolve avail key = some e) :
    (∀ ans, valuesFromJson vj avail required ns = .ok ans →
      (key, WValue.fromJson (entryType e) j) ∈ ans) ∧
    valuesFromJson vj avail required ns ≠ .error ⟨msgUnknown ++ key⟩ := by
  have hns2 : nameStartsWith key (normNs ns) = false := by
    rcases normNs_self_or_dot ns with h | h <;> rw [h]
    · exact hns
    · exact nameStartsWith_append_false key ns ['.'] hns
  have hstrip : stripNs (normNs ns) key = key := by
    rw [stripNs, if_neg]
    rintro ⟨-, hpre⟩
    rw [hns2] at hpre
    cases hpre
  have hrk : resolveKey avail (normNs ns) key = key := by
    rw [resolveKey]
    simp only [hstrip]
    rw [if_pos (by simp [Env.hasBinding, he])]
  constructor
  · intro ans hok
    cases hloop : valuesFromJsonLoop avail (normNs ns) vj Env.empty with
    | error m =>
      rw [valuesFromJson_of_loop_error vj avail required ns m hloop] at hok
      cases hok
    | ok ans0 =>
      have hbind := valuesFromJsonLoop_ok_binds avail (normNs ns) vj Env.empty
        ans0 key j e hmem hcomment (by rw [hrk]; exact he) hloop
      rw [hrk] at hbind
      rw [valuesFromJson_of_loop_ok vj avail required ns ans0 hloop] at hok
      rw [checkRequired_ok required ans0 ans hok]
      exact hbind
  · intro habs
    cases hloop : valuesFromJsonLoop avail (normNs ns) vj Env.empty with
    | error m =>
      rw [valuesFromJson_of_loop_error vj avail required ns m hloop] at habs
      injection habs with habs
      obtain ⟨k, -, hbad, hm⟩ :=
        valuesFromJsonLoop_error_shape avail (normNs ns) vj Env.empty m hloop
      rw [habs] at hm
      injection hm with hm
      have hkk : key = k := List.append_cancel_left hm
      rw [← hkk] at hbad
      have hb2 : Env.resolve avail (resolveKey avail (normNs ns) key) = none :=
        hbad.2
      rw [hrk, he] at hb2
      cases hb2
    | ok ans0 =>
      rw [valuesFromJson_of_loop_ok vj avail required ns ans0 hloop] at habs
      obtain ⟨t, ht⟩ := checkRequired_error_msg required ans0 _ habs
      exact msgMissing_append_ne t key ht.symm

theorem mem_subtract_iff {V W : Type} (a : Bindings V) (b : Bindings W)
    (item : Name × V) :
    item ∈ Env.subtract a b ↔ item ∈ a ∧ Env.hasBinding b item.1 = false := by
  simp [Env.subtract, List.mem_filter, Bool.not_eq_true]

theorem dictInsert_fresh (d : List (Name × JValue)) (k : Name) (v : JValue)
    (h : k ∉ d.map Prod.fst) : dictInsert d k v = d ++ [(k, v)] := by
  rw [dictInsert, if_neg]
  intro hx
  rcases List.any_eq_true.mp hx with ⟨e, he, hek⟩
  exact h (List.mem_map.mpr ⟨e, he, eq_of_beq hek⟩)

theorem foldl_dictInsert_append {V : Type} (f : V → JValue) (p : Name)
    (env : Bindings V) (acc : List (Name × JValue))
    (hnd : (env.map (fun it => p ++ it.1)).Nodup)
    (hdisj : ∀ it ∈ env, (p ++ it.1) ∉ acc.map Prod.fst) :
    env.foldl (fun ans item => dictInsert ans (p ++ item.1) (f item.2)) acc =
      acc ++ env.map (fun it => (p ++ it.1, f it.2)) := by
  induction env generalizing acc with
  | nil => simp
  | cons it rest ih =>
    rw [List.foldl_cons,
      dictInsert_fresh acc (p ++ it.1) (f it.2) (hdisj it (List.mem_cons_self _ _))]
    rw [List.map_cons] at hnd
    have hdisj2 : ∀ it2 ∈ rest,
        (p ++ it2.1) ∉ (acc ++ [(p ++ it.1, f it.2)]).map Prod.fst := by
      intro it2 hit2
      rw [List.map_append]
      intro hx
      rcases List.mem_append.mp hx with hx | hx
      · exact hdisj it2 (List.mem_cons_of_mem _ hit2) hx
      · have : p ++ it2.1 = p ++ it.1 := by simpa using hx
        exact (List.nodup_cons.mp hnd).1
          (this ▸ List.mem_map.mpr ⟨it2, hit2, rfl⟩)
    rw [ih _ (List.nodup_cons.mp hnd).2 hdisj2]
    simp

theorem valuesToJsonEntries_names (env : Bindings AvailEntry)
    (hnd : (Env.names env).Nodup) :
    (valuesToJsonEntries env []).map Prod.fst = Env.names env := by
  have hmap : env.map (fun it => ([] ++ it.1 : Name)) = Env.names env := by
    simp [Env.names]
  rw [valuesToJsonEntries, valuesToJsonWith]
  have hns : normNs [] = [] := rfl
  rw [hns]
  rw [foldl_dictInsert_append (fun e => JValue.str (entryType e)) [] env []
    (by rw [hmap]; exact hnd) (by intro it hit; simp)]
  simp [Env.names]

/-- C2: with a non-None `required` environment (with distinct names) and an
input dict whose per-key loop succeeds with bindings `ans`,
`values_from_json` raises the `InputError` listing the missing names exactly
when some name bound in `required` is absent from `ans`; when no required
name is missing, it returns `ans` unchanged. -/
theorem valuesFromJson_missing_required
    (vj : List (Name × JValue)) (avail : Bindings AvailEntry)
    (req : Bindings AvailEntry) (ns : Name) (ans : Bindings WValue)
    (hloop : valuesFromJsonLoop avail (normNs ns) vj Env.empty = .ok ans)
    (hnd : (Env.names req).Nodup) :
    (valuesFromJson vj avail (some req) ns =
        .error ⟨msgMissing ++ List.intercalate (", ".data)
          (Env.names (Env.subtract req ans))⟩
      ↔ ∃ item ∈ req, Env.hasBinding ans item.1 = false) ∧
    ((∀ item ∈ req, Env.hasBinding ans item.1 = true) →
      valuesFromJson vj avail (some req) ns = .ok ans) := by
  have hmain := valuesFromJson_of_loop_ok vj avail (some req) ns ans hloop
  have hndsub : (Env.names (Env.subtract req ans)).Nodup := by
    refine List.Nodup.sublist ?_ hnd
    exact List.Sublist.map Prod.fst (List.filter_sublist req)
  have hkeys : (valuesToJsonEntries (Env.subtract req ans) []).map Prod.fst =
      Env.names (Env.subtract req ans) := valuesToJsonEntries_names _ hndsub
  constructor
  · constructor
    · intro herr
      by_cases hmiss : Env.subtract req ans ≠ []
      · obtain ⟨item, hitem⟩ := List.exists_mem_of_ne_nil _ hmiss
        have := (mem_subtract_iff req ans item).mp hitem
        exact ⟨item, this.1, this.2⟩
      · rw [hmain, checkRequired] at herr
        by_cases hreq : req ≠ []
        · rw [if_pos hreq] at herr
          simp only [hmiss, if_neg] at herr
          cases herr
        · rw [if_neg hreq] at herr
          cases herr
    · rintro ⟨item, hitem, hmiss⟩
      have hsub : item ∈ Env.subtract req ans :=
        (mem_subtract_iff req ans item).mpr ⟨hitem, hmiss⟩
      have hne : Env.subtract req ans ≠ [] := List.ne_nil_of_mem hsub
      have hreq : req ≠ [] := List.ne_nil_of_mem hitem
      rw [hmain]
      simp only [checkRequired]
      rw [if_pos hreq, hkeys, if_pos hne]
  · intro hall
    have hmiss : Env.subtract req ans = [] := by
      rw [Env.subtract, List.filter_eq_nil_iff]
      intro item hitem
      simp [hall item hitem]
    rw [hmain]
    simp only [checkRequired]
    by_cases hreq : req ≠ []
    · rw [if_pos hreq]
      simp [hmiss]
    · rw [if_neg hreq]

/-- Witness for C2: with required `{x, a.c}` and an input dict binding only
`x`, the missing-required error lists `a.c`; with both bound, the bindings
come back unchanged. -/
theorem valuesFromJson_missing_required_witness :
    (valuesFromJson [("x".data, JValue.num 1)] exAvail (some exAvail) [] =
        .error ⟨msgMissing ++ List.intercalate (", ".data)
          (Env.names (Env.subtract exAvail
            [("x".data, WValue.fromJson "Int".data (JValue.num 1))]))⟩
      ↔ ∃ item ∈ exAvail,
          Env.hasBinding
            [("x".data, WValue.fromJson "Int".data (JValue.num 1))] item.1 =
            false) ∧
    ((∀ item ∈ exAvail,
        Env.hasBinding
          [("x".data, WValue.fromJson "Int".data (JValue.num 1))] item.1 =
          true) →
      valuesFromJson [("x".data, JValue.num 1)] exAvail (some exAvail) [] =
        .ok [("x".data, WValue.fromJson "Int".data (JValue.num 1))]) :=
  valuesFromJson_missing_required [("x".data, JValue.num 1)] exAvail exAvail
    [] [("x".data, WValue.fromJson "Int".data (JValue.num 1))] rfl (by decide)

/-- Witness for C10: with namespace `w`, the unprefixed key `x` (verbatim
available) is accepted and bound as `x`. -/
theorem valuesFromJson_namespace_optional_witness :
    (∀ ans, valuesFromJson [("x".data, JValue.num 1)] exAvail none "w".data =
        .ok ans →
      ("x".data, WValue.fromJson (entryType (.typeEntry "Int".data))
        (JValue.num 1)) ∈ ans) ∧
    valuesFromJson [("x".data, JValue.num 1)] exAvail none "w".data ≠
      .error ⟨msgUnknown ++ "x".data⟩ :=
  valuesFromJson_namespace_optional [("x".data, JValue.num 1)] exAvail none
    "w".data "x".data (JValue.num 1) (.typeEntry "Int".data)
    (by decide) (by decide) (by decide) (by decide)

theorem mem_keys_dictInsert_self (d : List (Name × JValue)) (k : Name)
    (v : JValue) : k ∈ (dictInsert d k v).map Prod.fst := by
  rw [dictInsert]
  by_cases hany : d.any (fun e => e.1 == k) = true
  · rw [if_pos hany]
    rcases List.any_eq_true.mp hany with ⟨e, he, hek⟩
    refine List.mem_map.mpr ⟨(k, v), List.mem_map.mpr ⟨e, he, ?_⟩, rfl⟩
    simp [hek]
  · rw [if_neg hany, List.map_append]
    exact List.mem_append.mpr (Or.inr (by simp))

theorem mem_keys_dictInsert_of_mem (d : List (Name × JValue)) (k x : Name)
    (v : JValue) (hx : x ∈ d.map Prod.fst) :
    x ∈ (dictInsert d k v).map Prod.fst := by
  by_cases hxk : x = k
  · rw [hxk]
    exact mem_keys_dictInsert_self d k v
  · rw [dictInsert]
    by_cases hany : d.any (fun e => e.1 == k) = true
    · rw [if_pos hany]
      rcases List.mem_map.mp hx with ⟨e, he, hex⟩
      refine List.mem_map.mpr ⟨e, List.mem_map.mpr ⟨e, he, ?_⟩, hex⟩
      rw [if_neg]
      rw [hex]
      simp [hxk]
    · rw [if_neg hany, List.map_append]
      exact List.mem_append.mpr (Or.inl hx)

theorem mem_keys_foldl_dictInsert_of_mem {V : Type} (f : V → JValue)
    (p x : Name) (env : Bindings V) (acc : List (Name × JValue))
    (hx : x ∈ acc.map Prod.fst) :
    x ∈ (env.foldl (fun ans item =>
      dictInsert ans (p ++ item.1) (f item.2)) acc).map Prod.fst := by
  induction env generalizing acc with
  | nil => exact hx
  | cons it rest ih =>
    rw [List.foldl_cons]
    exact ih _ (mem_keys_dictInsert_of_mem acc (p ++ it.1) x (f it.2) hx)

theorem mem_keys_foldl_dictInsert {V : Type} (f : V → JValue) (p : Name)
    (env : Bindings V) (acc : List (Name × JValue)) (item : Name × V)
    (hmem : item ∈ env) :
    (p ++ item.1) ∈ (env.foldl (fun ans it =>
      dictInsert ans (p ++ it.1) (f it.2)) acc).map Prod.fst := by
  induction env generalizing acc with
  | nil => cases hmem
  | cons it rest ih =>
    rw [List.foldl_cons]
    rcases List.mem_cons.mp hmem with heq | htail
    · rw [heq]
      exact mem_keys_foldl_dictInsert_of_mem f p _ rest _
        (mem_keys_dictInsert_self acc (p ++ it.1) (f it.2))
    · exact ih _ htail

/-- C9: namespace normalization — for every non-empty namespace `ns` not
ending in `.`, `values_from_json` and `values_to_json` behave identically on
`ns` and on `ns ++ "."` (the trailing dot is appended internally before any
prefix matching or key construction), and `values_to_json` maps each
environment entry to the key namespace-with-dot plus the entry's name. -/
theorem namespace_trailing_dot_normalization
    (vj : List (Name × JValue)) (avail : Bindings AvailEntry)
    (required : Option (Bindings AvailEntry)) (env : Bindings WValue)
    (ns : Name) (h1 : ns ≠ []) (h2 : endsWithDot ns = false) :
    valuesFromJson vj avail required ns =
      valuesFromJson vj avail required (ns ++ ['.']) ∧
    valuesToJson env ns = valuesToJson env (ns ++ ['.']) ∧
    ∀ item ∈ env, (ns ++ ['.'] ++ item.1) ∈ (valuesToJson env ns).map Prod.fst := by
  have hn1 : normNs ns = ns ++ ['.'] := by
    rw [normNs, if_pos ⟨h1, h2⟩]
  have hn2 : normNs (ns ++ ['.']) = ns ++ ['.'] := by
    rw [normNs, if_neg]
    rintro ⟨-, hd⟩
    rw [endsWithDot, List.getLast?_concat] at hd
    simp at hd
  refine ⟨?_, ?_, ?_⟩
  · simp only [valuesFromJson, hn1, hn2]
  · simp only [valuesToJson, valuesToJsonWith, hn1, hn2]
  · intro item hmem
    rw [valuesToJson, valuesToJsonWith, hn1]
    exact mem_keys_foldl_dictInsert WValue.json (ns ++ ['.']) env [] item hmem

/-- Witness for C9: namespace `w` and `w.` agree, and the entry `x` appears
under the key `w.x`. -/
theorem namespace_trailing_dot_normalization_witness :
    (valuesFromJson [("w.x".data, JValue.num 1)] exAvail none "w".data =
      valuesFromJson [("w.x".data, JValue.num 1)] exAvail none
        ("w".data ++ ['.'])) ∧
    (valuesToJson [("x".data, WValue.fromJson "Int".data (JValue.num 1))]
        "w".data =
      valuesToJson [("x".data, WValue.fromJson "Int".data (JValue.num 1))]
        ("w".data ++ ['.'])) ∧
    ∀ item ∈ [("x".data, WValue.fromJson "Int".data (JValue.num 1))],
      ("w".data ++ ['.'] ++ item.1) ∈
        (valuesToJson [("x".data, WValue.fromJson "Int".data (JValue.num 1))]
          "w".data).map Prod.fst :=
  namespace_trailing_dot_normalization [("w.x".data, JValue.num 1)] exAvail
    none [("x".data, WValue.fromJson "Int".data (JValue.num 1))] "w".data
    (by decide) (by decide)

/-- A name of the three-part dotted shape subject to flattening: it splits
into exactly three non-empty dot-separated parts. -/
def threePartShape (n : Name) : Bool :=
  match n.splitOn '.' with
  | [a, b, c] => a != [] && b != [] && c != []
  | _ => false

theorem valuesToJson_empty_ns (env : Bindings WValue)
    (hnd : (Env.names env).Nodup) :
    valuesToJson env [] = env.map (fun it => (it.1, it.2.json)) := by
  rw [valuesToJson, valuesToJsonWith]
  have hns : normNs [] = [] := rfl
  rw [hns]
  rw [foldl_dictInsert_append WValue.json [] env []
    (by simpa [Env.names] using hnd) (by intro it hit; simp)]
  simp

theorem valuesFromJsonLoop_all_avail (avail : Bindings AvailEntry)
    (vj : List (Name × JValue)) (acc : Bindings WValue)
    (h : ∀ kv ∈ vj, nameStartsWith kv.1 ['#'] = false ∧
      Env.hasBinding avail kv.1 = true) :
    ∃ ans, valuesFromJsonLoop avail [] vj acc = .ok ans ∧
      Env.names ans = (vj.map Prod.fst).reverse ++ Env.names acc := by
  induction vj generalizing acc with
  | nil => exact ⟨acc, rfl, by simp⟩
  | cons kv rest ih =>
    obtain ⟨key, j⟩ := kv
    obtain ⟨hc, hb⟩ := h (key, j) (List.mem_cons_self _ _)
    replace hb : Env.hasBinding avail key = true := hb
    have hstrip : stripNs [] key = key := by
      rw [stripNs, if_neg]
      rintro ⟨hne, -⟩
      exact hne rfl
    have hrk : resolveKey avail [] key = key := by
      rw [resolveKey]
      simp only [hstrip]
      rw [if_pos hb]
    obtain ⟨e, he⟩ := Option.isSome_iff_exists.mp hb
    obtain ⟨ans, hok, hnames⟩ :=
      ih (Env.bind acc key (WValue.fromJson (entryType e) j))
        (fun kv2 hkv2 => h kv2 (List.mem_cons_of_mem _ hkv2))
    refine ⟨ans, ?_, ?_⟩
    · rw [valuesFromJsonLoop, if_neg (by simp [hc])]
      simp only [hrk, he]
      exact hok
    · rw [hnames]
      simp [Env.names, Env.bind]

/-- C4: round trip — for an `Env.Bindings` of values whose names are
pairwise distinct, do not start with `#`, are not of the three-part dotted
shape subject to flattening, and are all present in the available
environment, `values_from_json` (empty namespace, no required argument)
applied to the dict produced by `values_to_json` (empty namespace) succeeds
and yields bindings with exactly the same set of names as the original
environment. -/
theorem values_roundtrip_names
    (env : Bindings WValue) (avail : Bindings AvailEntry)
    (hnd : (Env.names env).Nodup)
    (hhash : ∀ n ∈ Env.names env, nameStartsWith n ['#'] = false)
    (hdot : ∀ n ∈ Env.names env, threePartShape n = false)
    (havail : ∀ n ∈ Env.names env, Env.hasBinding avail n = true) :
    ∃ ans, valuesFromJson (valuesToJson env []) avail none [] = .ok ans ∧
      ∀ n, n ∈ Env.names ans ↔ n ∈ Env.names env := by
  have htj := valuesToJson_empty_ns env hnd
  have hkeys : (valuesToJson env []).map Prod.fst = Env.names env := by
    rw [htj, Env.names, List.map_map]
    rfl
  obtain ⟨ans, hok, hnames⟩ :=
    valuesFromJsonLoop_all_avail avail (valuesToJson env []) Env.empty
      (by
        intro kv hkv
        have hk : kv.1 ∈ Env.names env := by
          rw [← hkeys]
          exact List.mem_map.mpr ⟨kv, hkv, rfl⟩
        exact ⟨hhash kv.1 hk, havail kv.1 hk⟩)
  refine ⟨ans, ?_, ?_⟩
  · have hok2 : valuesFromJsonLoop avail (normNs []) (valuesToJson env [])
        Env.empty = .ok ans := hok
    rw [valuesFromJson_of_loop_ok _ avail none [] ans hok2]
    rfl
  · intro n
    rw [hnames, hkeys]
    rw [show Env.names (Env.empty : Bindings WValue) = [] from rfl,
      List.append_nil, List.mem_reverse]

/-- Witness for C4: a two-entry environment (`x`, `a.c`) round-trips through
`values_to_json` and `values_from_json` with the same name set. -/
theorem values_roundtrip_names_witness :
    ∃ ans,
      valuesFromJson
          (valuesToJson
            [("x".data, WValue.fromJson "Int".data (JValue.num 5)),
              ("a.c".data, WValue.fromJson "String".data (JValue.str "h".data))]
            []) exAvail none [] = .ok ans ∧
      ∀ n, n ∈ Env.names ans ↔
        n ∈ Env.names
          [("x".data, WValue.fromJson "Int".data (JValue.num 5)),
            ("a.c".data, WValue.fromJson "String".data (JValue.str "h".data))] :=
  values_roundtrip_names
    [("x".data, WValue.fromJson "Int".data (JValue.num 5)),
      ("a.c".data, WValue.fromJson "String".data (JValue.str "h".data))]
    exAvail (by decide) (by decide) (by decide) (by decide)


/-! ## Spec-modelled workflow engine fragments

The workflow execution engine itself is not part of the sources under
verification; the following definitions are modelled from the specification
(§3-§8) to settle the claims about its behavior. -/

/-- Modelled from the spec (§7 error taxonomy, §4.4): a runtime failure of a
workflow node — an expression-evaluation fault, or the distinct
assertion-failed error carrying the literal expression source. Both belong
to the `RuntimeError` family of the taxonomy. -/
inductive RunError where
  | evalError
  | assertFailed (exprSource : Name)
  deriving DecidableEq, Repr

/-- Modelled from the spec (§3, §4.4): a workflow-body node of a workflow
without scatter/conditional sections: a declaration binding one name to an
expression of the visible bindings, a boolean assertion gating execution, or
a Call delegating to a callee. Expression evaluation may fault (`none`). -/
inductive WNode where
  | decl (name : Name) (expr : Bindings Int → Option Int)
  | assertNode (exprSource : Name) (cond : Bindings Int → Option Bool)
  | callNode (name : Name) (callee : Bindings Int → Bindings Int)

/-- Modelled from the spec (§4.2, §4.4, §7): drive a scope's nodes in
dependency order over accumulating bindings, also counting how many Calls
executed. A declaration whose evaluation faults fails the scope with a
runtime error; a boolean assertion evaluating false fails it with the
distinct assertion-failed error carrying the expression source; in either
case no later node (in particular no Call) executes. -/
def runNodes : List WNode → Bindings Int → Except RunError (Bindings Int) × Nat
  | [], env => (.ok env, 0)
  | .decl n e :: rest, env =>
    match e env with
    | none => (.error .evalError, 0)
    | some v => runNodes rest (Env.bind env n v)
  | .assertNode src cond :: rest, env =>
    match cond env with
    | none => (.error .evalError, 0)
    | some b =>
      if b then runNodes rest env else (.error (.assertFailed src), 0)
  | .callNode _ callee :: rest, env =>
    let outs := callee env
    let res := runNodes rest (outs ++ env)
    (res.1, res.2 + 1)

/-- Modelled from the spec (§8 end-to-end literal): the `div` workflow —
inputs `numerator` and `denominator`, the assertion
`assert denominator != 0`, and the output declaration
`quotient = numerator / denominator`; it contains no Call nodes. -/
def divWorkflow : List WNode :=
  [ .assertNode "denominator != 0".data
      (fun env => (Env.resolve env "denominator".data).map (fun d => d != 0)),
    .decl "quotient".data
      (fun env =>
        match Env.resolve env "numerator".data,
            Env.resolve env "denominator".data with
        | some n, some d => if d = 0 then none else some (n / d)
        | _, _ => none) ]

/-- C5: running the workflow containing `assert denominator != 0` with
inputs `{numerator: 7, denominator: 0}` fails with the distinct
assertion-failed `RuntimeError` carrying the expression source, with zero
Calls executed (before any Call executes), while with denominator 2 the run
succeeds and produces `quotient = 3`. -/
theorem divWorkflow_assert_behavior :
    runNodes divWorkflow [("numerator".data, 7), ("denominator".data, 0)] =
      (.error (.assertFailed "denominator != 0".data), 0) ∧
    (∃ env,
      runNodes divWorkflow [("numerator".data, 7), ("denominator".data, 2)] =
        (.ok env, 0) ∧
      Env.resolve env "quotient".data = some 3) := by
  refine ⟨rfl, ⟨Env.bind [("numerator".data, 7), ("denominator".data, 2)]
    "quotient".data 3, rfl, rfl⟩⟩


/-- Modelled from the spec (§4.2 scatter expansion): one scatter iteration's
produced bindings — each declaration of the static body template applied to
the iteration's element of the collection. -/
def iterationProduced {V : Type} (decls : List (Name × (V → V))) (x : V) :
    Bindings V :=
  decls.map (fun d => (d.1, d.2 x))

/-- Modelled from the spec (§4.2, §5): scatter iterations may complete in an
arbitrary completion order; each completion records the iteration's index in
the input collection together with the bindings it produced. -/
def scatterRun {V : Type} (decls : List (Name × (V → V)))
    (collection : List V) (order : List Nat) : List (Nat × Bindings V) :=
  order.filterMap (fun i =>
    (collection[i]?).map (fun x => (i, iterationProduced decls x)))

/-- Modelled from the spec (§3 Gather, §4.2): a Gather for a name declared
inside a Scatter body collects the iterations' values for that name into an
array ordered by input-collection index. -/
def gatherArray {V : Type} (results : List (Nat × Bindings V)) (count : Nat)
    (n : Name) : List V :=
  (List.range count).filterMap (fun i =>
    (List.lookup i results).bind (fun env => Env.resolve env n))

theorem lookup_cons_self {α β : Type} [BEq α] [LawfulBEq α] (i : α) (b : β)
    (l : List (α × β)) : List.lookup i ((i, b) :: l) = some b := by
  simp [List.lookup]

theorem lookup_cons_of_ne {α β : Type} [BEq α] [LawfulBEq α] (i o : α)
    (b : β) (l : List (α × β)) (h : i ≠ o) :
    List.lookup i ((o, b) :: l) = List.lookup i l := by
  simp [List.lookup, beq_eq_false_iff_ne.mpr h]

theorem scatterRun_cons_none {V : Type} (decls : List (Name × (V → V)))
    (collection : List V) (o : Nat) (rest : List Nat)
    (h : collection[o]? = none) :
    scatterRun decls collection (o :: rest) =
      scatterRun decls collection rest := by
  rw [scatterRun, List.filterMap_cons, h]
  rfl

theorem scatterRun_cons_some {V : Type} (decls : List (Name × (V → V)))
    (collection : List V) (o : Nat) (rest : List Nat) (x : V)
    (h : collection[o]? = some x) :
    scatterRun decls collection (o :: rest) =
      (o, iterationProduced decls x) :: scatterRun decls collection rest := by
  rw [scatterRun, List.filterMap_cons, h]
  rfl

theorem lookup_scatterRun_not_mem {V : Type} (decls : List (Name × (V → V)))
    (collection : List V) (order : List Nat) (i : Nat) (hi : i ∉ order) :
    List.lookup i (scatterRun decls collection order) = none := by
  induction order with
  | nil => rfl
  | cons o rest ih =>
    have hio : i ≠ o := fun h => hi (h ▸ List.mem_cons_self o rest)
    have hirest : i ∉ rest := fun h => hi (List.mem_cons_of_mem o h)
    cases ho : collection[o]? with
    | none =>
      rw [scatterRun_cons_none decls collection o rest ho]
      exact ih hirest
    | some x =>
      rw [scatterRun_cons_some decls collection o rest x ho,
        lookup_cons_of_ne i o _ _ hio]
      exact ih hirest

theorem lookup_scatterRun_mem {V : Type} (decls : List (Name × (V → V)))
    (collection : List V) (order : List Nat) (i : Nat)
    (hnd : order.Nodup) (hi : i ∈ order) :
    List.lookup i (scatterRun decls collection order) =
      (collection[i]?).map (iterationProduced decls) := by
  induction order with
  | nil => cases hi
  | cons o rest ih =>
    obtain ⟨ho1, hnd2⟩ := List.nodup_cons.mp hnd
    by_cases hio : i = o
    · subst hio
      cases hx : collection[i]? with
      | none =>
        rw [scatterRun_cons_none decls collection i rest hx,
          lookup_scatterRun_not_mem decls collection rest i ho1]
        rfl
      | some x =>
        rw [scatterRun_cons_some decls collection i rest x hx,
          lookup_cons_self]
        rfl
    · rcases List.mem_cons.mp hi with h | hrest
      · exact absurd h hio
      cases hx : collection[o]? with
      | none =>
        rw [scatterRun_cons_none decls collection o rest hx]
        exact ih hnd2 hrest
      | some x =>
        rw [scatterRun_cons_some decls collection o rest x hx,
          lookup_cons_of_ne i o _ _ hio]
        exact ih hnd2 hrest

theorem resolve_iterationProduced {V : Type} (decls : List (Name × (V → V)))
    (x : V) (n : Name) (f : V → V)
    (hnd : (decls.map Prod.fst).Nodup) (hmem : (n, f) ∈ decls) :
    Env.resolve (iterationProduced decls x) n = some (f x) := by
  induction decls with
  | nil => cases hmem
  | cons d rest ih =>
    rw [List.map_cons] at hnd
    obtain ⟨hd1, hnd2⟩ := List.nodup_cons.mp hnd
    rcases List.mem_cons.mp hmem with heq | htail
    · rw [← heq]
      simp [iterationProduced, Env.resolve, List.lookup]
    · have hdn : n ≠ d.1 := by
        intro h
        exact hd1 (h ▸ List.mem_map.mpr ⟨(n, f), htail, rfl⟩)
      rw [iterationProduced, List.map_cons, Env.resolve,
        lookup_cons_of_ne n d.1 (d.2 x) _ hdn]
      exact ih hnd2 htail

theorem range_filterMap_getElem {V W : Type} (collection : List V)
    (g : V → W) :
    (List.range collection.length).filterMap
      (fun i => (collection[i]?).map g) = collection.map g := by
  induction collection with
  | nil => rfl
  | cons x xs ih =>
    rw [List.length_cons, List.range_succ_eq_map, List.filterMap_cons]
    rw [show ((x :: xs)[(0 : Nat)]?).map g = some (g x) by simp]
    rw [List.filterMap_map]
    have hcomp : ((fun i => ((x :: xs)[i]?).map g) ∘ Nat.succ) =
        (fun i => (xs[i]?).map g) := by
      funext i
      simp
    rw [hcomp, ih, List.map_cons]

/-- C6: for a Scatter whose collection has length N, under any completion
order (any permutation of the iteration indices), each Gather name declared
in the body yields the array of the N per-iteration values ordered by
input-collection index — exactly N elements — and an empty collection yields
empty arrays with zero body-node invocations (no iteration results at
all). -/
theorem scatter_gather_indexed {V : Type} (decls : List (Name × (V → V)))
    (collection : List V) (order : List Nat) (n : Name) (f : V → V)
    (hperm : order.Perm (List.range collection.length))
    (hnd : (decls.map Prod.fst).Nodup)
    (hmem : (n, f) ∈ decls) :
    gatherArray (scatterRun decls collection order) collection.length n =
      collection.map f ∧
    (gatherArray (scatterRun decls collection order)
      collection.length n).length = collection.length ∧
    (collection = [] →
      scatterRun decls collection order = [] ∧
      gatherArray (scatterRun decls collection order)
        collection.length n = []) := by
  have hndo : order.Nodup := hperm.nodup_iff.mpr (List.nodup_range _)
  have hcg : ∀ i ∈ List.range collection.length,
      (List.lookup i (scatterRun decls collection order)).bind
        (fun env => Env.resolve env n) = (collection[i]?).map f := by
    intro i hi
    have hilt : i < collection.length := List.mem_range.mp hi
    have hio : i ∈ order := hperm.mem_iff.mpr hi
    rw [lookup_scatterRun_mem decls collection order i hndo hio,
      List.getElem?_eq_getElem hilt]
    simp only [Option.map_some', Option.some_bind]
    exact resolve_iterationProduced decls _ n f hnd hmem
  have hmain : gatherArray (scatterRun decls collection order)
      collection.length n = collection.map f := by
    rw [gatherArray, List.filterMap_congr hcg,
      range_filterMap_getElem collection f]
  refine ⟨hmain, ?_, ?_⟩
  · rw [hmain, List.length_map]
  · intro hc
    subst hc
    have hord : order = [] := hperm.eq_nil
    subst hord
    exact ⟨rfl, rfl⟩

/-- Witness for C6: scattering `y = x * 2` over `[1, 2, 3]` with completion
order `[2, 0, 1]` gathers `y = [2, 4, 6]` in collection order. -/
theorem scatter_gather_indexed_witness :
    gatherArray
        (scatterRun [("y".data, fun x => x * 2)] [(1 : Int), 2, 3] [2, 0, 1])
        ([(1 : Int), 2, 3]).length "y".data =
      ([(1 : Int), 2, 3]).map (fun x => x * 2) ∧
    (gatherArray
        (scatterRun [("y".data, fun x => x * 2)] [(1 : Int), 2, 3] [2, 0, 1])
        ([(1 : Int), 2, 3]).length "y".data).length =
      ([(1 : Int), 2, 3]).length ∧
    (([(1 : Int), 2, 3]) = [] →
      scatterRun [("y".data, fun x => x * 2)] [(1 : Int), 2, 3] [2, 0, 1] =
        [] ∧
      gatherArray
          (scatterRun [("y".data, fun x => x * 2)] [(1 : Int), 2, 3]
            [2, 0, 1]) ([(1 : Int), 2, 3]).length "y".data = []) :=
  scatter_gather_indexed [("y".data, fun x => x * 2)] [(1 : Int), 2, 3]
    [2, 0, 1] "y".data (fun x => x * 2) (by decide) (by simp)
    (List.mem_singleton.mpr rfl)


/-- Modelled from the spec (§6 file resolution interface, §4.3): a pluggable
fetcher, indexed by attempt number to model retries; fetching a URI tries
attempts `0..maxRetries` and returns the first successful content, if any —
`none` is a persistent fetch failure after retries. -/
def fetchWithRetries (fetcher : Name → Nat → Option Name) (maxRetries : Nat)
    (uri : Name) : Option Name :=
  (List.range (maxRetries + 1)).findSome? (fetcher uri)

/-- Modelled from the spec (§7 error taxonomy): the distinct `DownloadFailed`
error, naming the unresolved URI. -/
inductive DownloadError where
  | downloadFailed (uri : Name)
  deriving DecidableEq, Repr

/-- Modelled from the spec (§6, §7): materialize a run's File-typed input
URIs through the fetcher; a URI that persistently fails after retries fails
input resolution with `DownloadFailed` naming it. -/
def resolveFileInputs (fetcher : Name → Nat → Option Name) (maxRetries : Nat) :
    List Name → Except DownloadError (List (Name × Name))
  | [] => .ok []
  | uri :: rest =>
    match fetchWithRetries fetcher maxRetries uri with
    | none => .error (.downloadFailed uri)
    | some content =>
      match resolveFileInputs fetcher maxRetries rest with
      | .error e => .error e
      | .ok localized => .ok ((uri, content) :: localized)

/-- Modelled from the spec (§6): a run whose inputs include File-typed URIs
first materializes all the files, then runs the workflow body on the
localized inputs. -/
def runWithFileInputs {O : Type} (fetcher : Name → Nat → Option Name)
    (maxRetries : Nat) (uris : List Name)
    (wf : List (Name × Name) → O) : Except DownloadError O :=
  match resolveFileInputs fetcher maxRetries uris with
  | .error e => .error e
  | .ok localized => .ok (wf localized)

theorem resolveFileInputs_fail (fetcher : Name → Nat → Option Name)
    (maxRetries : Nat) (uris : List Name)
    (h : ∃ uri ∈ uris, fetchWithRetries fetcher maxRetries uri = none) :
    ∃ uri ∈ uris, fetchWithRetries fetcher maxRetries uri = none ∧
      resolveFileInputs fetcher maxRetries uris =
        .error (.downloadFailed uri) := by
  induction uris with
  | nil =>
    rcases h with ⟨u, hu, -⟩
    cases hu
  | cons uri rest ih =>
    cases hf : fetchWithRetries fetcher maxRetries uri with
    | none =>
      refine ⟨uri, List.mem_cons_self _ _, hf, ?_⟩
      rw [resolveFileInputs, hf]
    | some content =>
      have h2 : ∃ u ∈ rest, fetchWithRetries fetcher maxRetries u = none := by
        rcases h with ⟨u, hu, hun⟩
        rcases List.mem_cons.mp hu with heq | hmem
        · rw [heq, hf] at hun
          cases hun
        · exact ⟨u, hmem, hun⟩
      obtain ⟨u, hu, hun, herr⟩ := ih h2
      refine ⟨u, List.mem_cons_of_mem _ hu, hun, ?_⟩
      rw [resolveFileInputs, hf, herr]

theorem resolveFileInputs_ok (fetcher : Name → Nat → Option Name)
    (maxRetries : Nat) (uris : List Name)
    (h : ∀ uri ∈ uris, fetchWithRetries fetcher maxRetries uri ≠ none) :
    ∃ localized, resolveFileInputs fetcher maxRetries uris =
      .ok localized := by
  induction uris with
  | nil => exact ⟨[], rfl⟩
  | cons uri rest ih =>
    cases hf : fetchWithRetries fetcher maxRetries uri with
    | none => exact absurd hf (h uri (List.mem_cons_self _ _))
    | some content =>
      obtain ⟨localized, hrest⟩ :=
        ih (fun u hu => h u (List.mem_cons_of_mem _ hu))
      refine ⟨(uri, content) :: localized, ?_⟩
      rw [resolveFileInputs, hf, hrest]

/-- C7: for every run whose File-typed inputs include a URI that persistently
fails to fetch after retries, the run fails with the distinct
`DownloadFailed` error naming such an unresolved URI, whereas the same
workflow with all URIs resolvable completes successfully. -/
theorem run_with_unresolvable_uri_failure {O : Type}
    (fetcher : Name → Nat → Option Name) (maxRetries : Nat)
    (uris : List Name) (wf : List (Name × Name) → O) :
    ((∃ uri ∈ uris, fetchWithRetries fetcher maxRetries uri = none) →
      ∃ uri ∈ uris, fetchWithRetries fetcher maxRetries uri = none ∧
        runWithFileInputs fetcher maxRetries uris wf =
          .error (.downloadFailed uri)) ∧
    ((∀ uri ∈ uris, fetchWithRetries fetcher maxRetries uri ≠ none) →
      ∃ out, runWithFileInputs fetcher maxRetries uris wf = .ok out) := by
  constructor
  · intro h
    obtain ⟨uri, hu, hun, herr⟩ :=
      resolveFileInputs_fail fetcher maxRetries uris h
    refine ⟨uri, hu, hun, ?_⟩
    rw [runWithFileInputs, herr]
  · intro h
    obtain ⟨localized, hok⟩ := resolveFileInputs_ok fetcher maxRetries uris h
    refine ⟨wf localized, ?_⟩
    rw [runWithFileInputs, hok]

/-- A concrete fetcher for the C7 witness: resolves only `http://good`, on
every attempt. -/
def exFetcher : Name → Nat → Option Name :=
  fun uri _ => if uri = "http://good".data then some "ok".data else none

/-- Witness for C7: with inputs `[http://good, http://bad]` the run fails
with `DownloadFailed` naming `http://bad`; with `[http://good]` alone it
completes successfully. -/
theorem run_with_unresolvable_uri_failure_witness :
    (∃ uri ∈ ["http://good".data, "http://bad".data],
      fetchWithRetries exFetcher 2 uri = none ∧
        runWithFileInputs exFetcher 2
            ["http://good".data, "http://bad".data] List.length =
          .error (.downloadFailed uri)) ∧
    (∃ out, runWithFileInputs exFetcher 2 ["http://good".data] List.length =
      .ok out) := by
  constructor
  · exact (run_with_unresolvable_uri_failure exFetcher 2
      ["http://good".data, "http://bad".data] List.length).1
      ⟨"http://bad".data, by decide, by decide⟩
  · exact (run_with_unresolvable_uri_failure exFetcher 2
      ["http://good".data] List.length).2 (by decide)


end Miniwdl
